import Mathlib

/-!
Shallow embedding of the tournament orchestrator in
`backend/services.py` (`QuestionService.generate_questions` and
`QuestionService.async_generate_questions`), together with the retry
wrapper `_to_thread_with_retry`.

Providers are external network collaborators; they are modelled as
oracles: a generation oracle `EngineType → Option Question` (`none`
models a failed or empty generation) and an evaluation oracle
`EngineType → String → Option ℚ` giving the score an evaluator engine
returns for a candidate question id (`none` models a failed
evaluation call).  Scores (Python floats) are modelled as rationals.
-/

namespace Prompt2Quiz

/-- Engine identities, from `schemas.py` `EngineType`. -/
inductive EngineType where
  | gpt
  | gemini
  | anthropic
  | xai
deriving DecidableEq, Repr

/-- The fields of `schemas.Question` that the tournament orchestrator
reads: the unique question `id` (a uuid string in the source) and the
producing `engine`.  All other payload fields (text, options, answer,
explanation, ...) are opaque to the orchestration logic. -/
structure Question where
  id : String
  engine : EngineType
deriving DecidableEq, Repr

/-- One element of the per-evaluator score list
`scores_for_evaluator : List[Tuple[str, float, dict]]` (the
`vote` payload carries no information used by ranking). -/
structure ScoreEntry where
  qid : String
  score : ℚ
deriving DecidableEq, Repr

/-- One recorded ballot entry: the source stores these as
`evaluations[qid][evaluator] = {**vote, "rank": r, "points": p}`.
We record the flattened entries. -/
structure BallotEntry where
  evaluator : EngineType
  qid : String
  score : ℚ
  rank : ℕ
  points : ℤ
deriving DecidableEq, Repr

/-- Lexicographic comparison of code-point sequences, exactly Python's
`str < str` on the characters: first differing character decides,
otherwise the shorter string is smaller. -/
def strLtB : List Char → List Char → Bool
  | [], [] => false
  | [], _ :: _ => true
  | _ :: _, [] => false
  | a :: as, b :: bs =>
      if a < b then true
      else if b < a then false
      else strLtB as bs

/-- Lexicographically strictly smaller string. -/
def strLt (s t : String) : Prop :=
  strLtB s.data t.data = true

/-- Lexicographically smaller-or-equal string, as Python's `str <= str`. -/
def strLe (s t : String) : Prop :=
  ¬ strLt t s

instance : ∀ s t, Decidable (strLt s t) := fun s t => by
  unfold strLt
  infer_instance

instance : ∀ s t, Decidable (strLe s t) := fun s t => by
  unfold strLe
  infer_instance

/-- Relation `voteGE a b` holds when `a` may precede `b` in the Python sort
`scores_for_evaluator.sort(key=lambda t: (t[1], t[0]), reverse=True)`:
strictly higher score first, and on equal scores the lexicographically
larger question id first (both tuple components are reversed by
`reverse=True`). -/
def voteGE (a b : ScoreEntry) : Prop :=
  b.score < a.score ∨ (b.score = a.score ∧ strLe b.qid a.qid)

instance : DecidableRel voteGE := fun a b => by
  unfold voteGE
  infer_instance

/-- Points formula `max(num_cands - rank_index + 1, 1)` from the source. -/
def pointsFor (numCands rank : ℕ) : ℤ :=
  max ((numCands : ℤ) - (rank : ℤ) + 1) 1

/-- The `enumerate(scores_for_evaluator, start=r0)` loop that attaches
`rank` and `points` to each sorted score entry. -/
def assignRanks (numCands : ℕ) (ev : EngineType) : ℕ → List ScoreEntry → List BallotEntry
  | _, [] => []
  | r, e :: rest =>
      ⟨ev, e.qid, e.score, r, pointsFor numCands r⟩ :: assignRanks numCands ev (r + 1) rest

/-- One evaluator's ranked ballot: sort its collected score entries by
`(score, qid)` descending, then enumerate ranks from 1. -/
def rankBallot (numCands : ℕ) (ev : EngineType) (entries : List ScoreEntry) :
    List BallotEntry :=
  assignRanks numCands ev 1 (List.insertionSort voteGE entries)

/-- The per-evaluator collection loop over `candidates.items()`:
skip self-evaluation, drop failed evaluation calls, keep
`(cand.id, score)`. -/
def collectScores (evalOracle : EngineType → String → Option ℚ) (ev : EngineType)
    (candidates : List (EngineType × Question)) : List ScoreEntry :=
  candidates.filterMap fun p =>
    if p.1 = ev then none
    else (evalOracle ev p.2.id).map fun s => ⟨p.2.id, s⟩

/-- All ballot entries produced by the cross-evaluation phase: one
ranked ballot per effective engine (`engines_effective =
list(candidates.keys())`), with `num_cands = len(engines_effective)`. -/
def allBallots (evalOracle : EngineType → String → Option ℚ)
    (candidates : List (EngineType × Question)) : List BallotEntry :=
  (candidates.map Prod.fst).flatMap fun ev =>
    rankBallot candidates.length ev (collectScores evalOracle ev candidates)

/-- Totals accumulation `totals[qid] = sum(v["points"] for v in evaluations[qid].values())`. -/
def totalPoints (ballots : List BallotEntry) (qid : String) : ℤ :=
  ((ballots.filter fun b => b.qid = qid).map (·.points)).sum

/-- Function `mean_score(qid)` from the source: arithmetic mean of the scores
recorded for `qid`, `0` when there are none. -/
def meanScore (ballots : List BallotEntry) (qid : String) : ℚ :=
  if ((ballots.filter fun b => b.qid = qid).map (·.score)).length = 0 then 0
  else ((ballots.filter fun b => b.qid = qid).map (·.score)).sum /
    ((((ballots.filter fun b => b.qid = qid).map (·.score)).length : ℕ) : ℚ)

/-- Strict lexicographic order on the Python winner key
`(totals[qid], mean_score(qid), qid)`. -/
def keyLt (a b : ℤ × ℚ × String) : Prop :=
  a.1 < b.1 ∨ (a.1 = b.1 ∧ (a.2.1 < b.2.1 ∨ (a.2.1 = b.2.1 ∧ strLt a.2.2 b.2.2)))

instance : DecidableRel keyLt := fun a b => by
  unfold keyLt
  infer_instance

/-- One step of Python `max(iterable, key=...)`: the running best is
replaced exactly when a strictly greater key is seen. -/
def pyStep (key : String → ℤ × ℚ × String) (best y : String) : String :=
  if keyLt (key best) (key y) then y else best

/-- Python `max(iterable, key=...)`: scan left to right, replacing the
current best exactly when a strictly greater key is seen. -/
def pyMax (key : String → ℤ × ℚ × String) : List String → Option String
  | [] => none
  | x :: xs => some (xs.foldl (pyStep key) x)

/-- First-occurrence deduplication, matching Python dict key order
(`totals.keys()` lists each question id once, at its first insertion). -/
def dedupFirstAux {α : Type} [DecidableEq α] (seen : List α) : List α → List α
  | [] => []
  | x :: xs =>
      if x ∈ seen then dedupFirstAux seen xs
      else x :: dedupFirstAux (x :: seen) xs

/-- First-occurrence deduplication of a list. -/
def dedupFirst {α : Type} [DecidableEq α] (l : List α) : List α :=
  dedupFirstAux [] l

/-- The composite winner key `(totals[qid], mean_score(qid), qid)`. -/
def winnerKey (ballots : List BallotEntry) (q : String) : ℤ × ℚ × String :=
  (totalPoints ballots q, meanScore ballots q, q)

/-- Winner selection `winner_id = max(totals.keys(), key=lambda qid: (totals[qid], mean_score(qid), qid))`. -/
def winnerId (ballots : List BallotEntry) : Option String :=
  pyMax (winnerKey ballots) (dedupFirst (ballots.map (·.qid)))

/-- Assignment `candidates[engine] = q`: Python dict insert-or-overwrite, keeping
the first-insertion position of an existing key. -/
def insertCand (m : List (EngineType × Question)) (e : EngineType) (q : Question) :
    List (EngineType × Question) :=
  if m.any fun p => p.1 = e then m.map fun p => if p.1 = e then (e, q) else p
  else m ++ [(e, q)]

/-- One iteration of the generation loop: a failed generation leaves
the candidate mapping unchanged, a successful one stores the question
under its engine. -/
def genStep (gen : EngineType → Option Question)
    (m : List (EngineType × Question)) (e : EngineType) :
    List (EngineType × Question) :=
  match gen e with
  | none => m
  | some q => insertCand m e q

/-- The generation loop: one `generate_questions(..., 1)` call per
requested engine, failures dropped, successes stored keyed by engine. -/
def genCandidates (gen : EngineType → Option Question) (engines : List EngineType) :
    List (EngineType × Question) :=
  engines.foldl (genStep gen) []

/-- The whole tournament: generate, cross-evaluate, aggregate.
Mirrors the control flow of `generate_questions` /
`async_generate_questions`: empty candidate set short-circuits to
`([], [], none)`; empty ballot set returns the candidates with no
winner; otherwise the winner is the composite-key maximum. -/
def generateQuestions (gen : EngineType → Option Question)
    (evalOracle : EngineType → String → Option ℚ) (engines : List EngineType) :
    List Question × List BallotEntry × Option String :=
  if (genCandidates gen engines).isEmpty then ([], [], none)
  else if (allBallots evalOracle (genCandidates gen engines)).isEmpty then
    ((genCandidates gen engines).map Prod.snd, [], none)
  else
    ((genCandidates gen engines).map Prod.snd,
      allBallots evalOracle (genCandidates gen engines),
      winnerId (allBallots evalOracle (genCandidates gen engines)))

/-- The retry loop of `_to_thread_with_retry`, indexed by the current
attempt number `k` and the number of retries still allowed (`fuel`).
With no fuel left the current attempt's outcome is returned as is
(Python: `break` out of the loop and `raise last_exc`). -/
def retryFrom {E A : Type} (attempts : ℕ → Except E A) : ℕ → ℕ → Except E A
  | k, 0 => attempts k
  | k, fuel + 1 =>
      match attempts k with
      | Except.ok a => Except.ok a
      | Except.error _ => retryFrom attempts (k + 1) fuel

/-- Wrapper `_to_thread_with_retry(callable_fn, ..., retries=retries)`:
attempt 0 first, then up to `retries` further attempts; the outcome of
each attempt `k` is `attempts k`. -/
def toThreadWithRetry {E A : Type} (attempts : ℕ → Except E A) (retries : ℕ) :
    Except E A :=
  retryFrom attempts 0 retries

/-- Generation oracle for the concrete 3-engine scenario of the spec:
engine A = gpt produces candidate `a1`, B = gemini produces `b1`,
C = anthropic produces `c1`. -/
def genOracle3 : EngineType → Option Question
  | EngineType.gpt => some ⟨"a1", EngineType.gpt⟩
  | EngineType.gemini => some ⟨"b1", EngineType.gemini⟩
  | EngineType.anthropic => some ⟨"c1", EngineType.anthropic⟩
  | EngineType.xai => none

/-- Evaluation oracle for the concrete 3-engine scenario:
A scores b1=9 and c1=7; B scores a1=8 and c1=6; C scores a1=7 and b1=9. -/
def evalOracle3 : EngineType → String → Option ℚ
  | EngineType.gpt, "b1" => some 9
  | EngineType.gpt, "c1" => some 7
  | EngineType.gemini, "a1" => some 8
  | EngineType.gemini, "c1" => some 6
  | EngineType.anthropic, "a1" => some 7
  | EngineType.anthropic, "b1" => some 9
  | _, _ => none

/-- The candidate mapping of the concrete 3-engine scenario. -/
def scenarioCands : List (EngineType × Question) :=
  genCandidates genOracle3 [EngineType.gpt, EngineType.gemini, EngineType.anthropic]

/-- The ballot set of the concrete 3-engine scenario. -/
def scenarioBallots : List BallotEntry :=
  allBallots evalOracle3 scenarioCands

/-- A candidate mapping exhibiting a score tie: gemini produced
candidate `a`, anthropic produced `b`, gpt produced `c`. -/
def cexCands : List (EngineType × Question) :=
  [(EngineType.gemini, ⟨"a", EngineType.gemini⟩),
    (EngineType.anthropic, ⟨"b", EngineType.anthropic⟩),
    (EngineType.gpt, ⟨"c", EngineType.gpt⟩)]

/-- An evaluation oracle under which evaluator gpt gives the two other
candidates the same score, exercising the tie-break of the per-evaluator
sort. -/
def cexOracle : EngineType → String → Option ℚ
  | EngineType.gpt, "a" => some 5
  | EngineType.gpt, "b" => some 5
  | _, _ => none

/-- The async variant's raw verification results
`(evaluator_name, qid, score)` collected from `asyncio.gather`. -/
structure VerifyResult where
  evaluator : EngineType
  qid : String
  score : ℚ
deriving DecidableEq, Repr

/-- The async fold `per_evaluator.setdefault(name, []).append(...)`
followed by per-evaluator ranking: evaluators appear in first-arrival
order, each with its arrival-ordered score list. -/
def ballotsFromTriples (numCands : ℕ) (triples : List VerifyResult) :
    List BallotEntry :=
  (dedupFirst (triples.map (·.evaluator))).flatMap fun ev =>
    rankBallot numCands ev
      ((triples.filter fun t => t.evaluator = ev).map fun t => ⟨t.qid, t.score⟩)

/-- Winner of the async aggregation run on raw verification results. -/
def winnerFromTriples (numCands : ℕ) (triples : List VerifyResult) : Option String :=
  winnerId (ballotsFromTriples numCands triples)

/-! ### The code-point lexicographic string order -/

theorem strLtB_nil_right : ∀ l : List Char, strLtB l [] = false := by
  intro l
  cases l <;> rfl

theorem strLtB_cons_iff (a b : Char) (as bs : List Char) :
    strLtB (a :: as) (b :: bs) = true ↔ a < b ∨ (a = b ∧ strLtB as bs = true) := by
  simp only [strLtB]
  by_cases h1 : a < b
  · simp [h1]
  · by_cases h2 : b < a
    · simp only [if_neg h1, if_pos h2]
      constructor
      · intro h
        exact absurd h (by simp)
      · rintro (h | ⟨rfl, _⟩)
        · exact absurd h h1
        · exact absurd h2 (lt_irrefl a)
    · have heq : a = b := le_antisymm (le_of_not_lt h2) (le_of_not_lt h1)
      simp [h1, h2, heq]

theorem strLtB_irrefl : ∀ l : List Char, strLtB l l = false := by
  intro l
  induction l with
  | nil => rfl
  | cons a as ih =>
    simp only [strLtB, if_neg (lt_irrefl a)]
    exact ih

theorem strLtB_trans : ∀ l1 l2 l3 : List Char,
    strLtB l1 l2 = true → strLtB l2 l3 = true → strLtB l1 l3 = true := by
  intro l1
  induction l1 with
  | nil =>
    intro l2 l3 h1 h2
    cases l2 with
    | nil => exact absurd h1 (by simp [strLtB])
    | cons b bs =>
      cases l3 with
      | nil => exact absurd h2 (by simp [strLtB_nil_right])
      | cons c cs => rfl
  | cons a as ih =>
    intro l2 l3 h1 h2
    cases l2 with
    | nil => exact absurd h1 (by simp [strLtB_nil_right])
    | cons b bs =>
      cases l3 with
      | nil => exact absurd h2 (by simp [strLtB_nil_right])
      | cons c cs =>
        rw [strLtB_cons_iff] at h1 h2 ⊢
        rcases h1 with h1 | ⟨rfl, h1⟩
        · rcases h2 with h2 | ⟨rfl, _⟩
          · exact Or.inl (lt_trans h1 h2)
          · exact Or.inl h1
        · rcases h2 with h2 | ⟨rfl, h2⟩
          · exact Or.inl h2
          · exact Or.inr ⟨rfl, ih bs cs h1 h2⟩

theorem strLtB_trichotomy : ∀ l1 l2 : List Char,
    strLtB l1 l2 = true ∨ l1 = l2 ∨ strLtB l2 l1 = true := by
  intro l1
  induction l1 with
  | nil =>
    intro l2
    cases l2 with
    | nil => exact Or.inr (Or.inl rfl)
    | cons c cs => exact Or.inl rfl
  | cons a as ih =>
    intro l2
    cases l2 with
    | nil => exact Or.inr (Or.inr rfl)
    | cons b bs =>
      rcases lt_trichotomy a b with h | rfl | h
      · exact Or.inl ((strLtB_cons_iff a b as bs).2 (Or.inl h))
      · rcases ih bs with h | h | h
        · exact Or.inl ((strLtB_cons_iff a a as bs).2 (Or.inr ⟨rfl, h⟩))
        · exact Or.inr (Or.inl (by rw [h]))
        · exact Or.inr (Or.inr ((strLtB_cons_iff a a bs as).2 (Or.inr ⟨rfl, h⟩)))
      · exact Or.inr (Or.inr ((strLtB_cons_iff b a bs as).2 (Or.inl h)))

theorem strLt_irrefl (s : String) : ¬ strLt s s := by
  unfold strLt
  simp [strLtB_irrefl]

theorem strLt_trans {a b c : String} (h1 : strLt a b) (h2 : strLt b c) : strLt a c :=
  strLtB_trans a.data b.data c.data h1 h2

theorem strLt_asymm {a b : String} (h : strLt a b) : ¬ strLt b a :=
  fun h2 => strLt_irrefl a (strLt_trans h h2)

theorem strLt_trichotomy (s t : String) : strLt s t ∨ s = t ∨ strLt t s := by
  rcases strLtB_trichotomy s.data t.data with h | h | h
  · exact Or.inl h
  · refine Or.inr (Or.inl ?_)
    cases s
    cases t
    exact congrArg String.mk h
  · exact Or.inr (Or.inr h)

theorem strLe_total (s t : String) : strLe s t ∨ strLe t s := by
  rcases strLt_trichotomy s t with h | rfl | h
  · exact Or.inl (strLt_asymm h)
  · exact Or.inl (strLt_irrefl s)
  · exact Or.inr (strLt_asymm h)

theorem strLe_trans {a b c : String} (h1 : strLe a b) (h2 : strLe b c) : strLe a c := by
  intro hlt
  rcases strLt_trichotomy a b with h | rfl | h
  · exact h2 (strLt_trans hlt h)
  · exact h2 hlt
  · exact h1 h

theorem strLe_antisymm {a b : String} (h1 : strLe a b) (h2 : strLe b a) : a = b := by
  rcases strLt_trichotomy a b with h | h | h
  · exact absurd h h2
  · exact h
  · exact absurd h h1

/-! ### Order properties of the per-evaluator sort relation -/

instance : IsTotal ScoreEntry voteGE := by
  constructor
  intro a b
  unfold voteGE
  rcases lt_trichotomy a.score b.score with h | h | h
  · exact Or.inr (Or.inl h)
  · rcases strLe_total b.qid a.qid with hq | hq
    · exact Or.inl (Or.inr ⟨h.symm, hq⟩)
    · exact Or.inr (Or.inr ⟨h, hq⟩)
  · exact Or.inl (Or.inl h)

instance : IsTrans ScoreEntry voteGE := by
  constructor
  intro a b c hab hbc
  unfold voteGE at *
  rcases hab with h1 | ⟨h1, hq1⟩
  · rcases hbc with h2 | ⟨h2, _⟩
    · exact Or.inl (lt_trans h2 h1)
    · exact Or.inl (h2 ▸ h1)
  · rcases hbc with h2 | ⟨h2, hq2⟩
    · exact Or.inl (h1 ▸ h2)
    · exact Or.inr ⟨h1 ▸ h2, strLe_trans hq2 hq1⟩

instance : IsAntisymm ScoreEntry voteGE := by
  constructor
  intro a b hab hba
  unfold voteGE at hab hba
  have hs : a.score = b.score := by
    rcases hab with h1 | ⟨h1, _⟩
    · rcases hba with h2 | ⟨h2, _⟩
      · exact absurd h1 (asymm h2)
      · exact h2
    · exact h1.symm
  have hq : a.qid = b.qid := by
    rcases hab with h1 | ⟨_, hq1⟩
    · exact absurd (hs ▸ h1) (lt_irrefl _)
    · rcases hba with h2 | ⟨_, hq2⟩
      · exact absurd (hs ▸ h2) (lt_irrefl _)
      · exact strLe_antisymm hq2 hq1
  cases a
  cases b
  simp_all

/-! ### Basic facts about the lexicographic winner key -/

theorem keyLt_irrefl (a : ℤ × ℚ × String) : ¬ keyLt a a := by
  unfold keyLt
  rintro (h | ⟨_, h | ⟨_, h⟩⟩)
  · exact lt_irrefl _ h
  · exact lt_irrefl _ h
  · exact strLt_irrefl _ h

theorem keyLt_trans {a b c : ℤ × ℚ × String} (hab : keyLt a b) (hbc : keyLt b c) :
    keyLt a c := by
  obtain ⟨a1, a2, a3⟩ := a
  obtain ⟨b1, b2, b3⟩ := b
  obtain ⟨c1, c2, c3⟩ := c
  simp only [keyLt] at *
  rcases hab with h1 | ⟨e1, h1⟩
  · rcases hbc with h2 | ⟨e2, _⟩
    · exact Or.inl (lt_trans h1 h2)
    · exact Or.inl (e2 ▸ h1)
  · rcases hbc with h2 | ⟨e2, h2⟩
    · exact Or.inl (e1 ▸ h2)
    · refine Or.inr ⟨e1.trans e2, ?_⟩
      rcases h1 with h1 | ⟨f1, h1⟩
      · rcases h2 with h2 | ⟨f2, _⟩
        · exact Or.inl (lt_trans h1 h2)
        · exact Or.inl (f2 ▸ h1)
      · rcases h2 with h2 | ⟨f2, h2⟩
        · exact Or.inl (f1 ▸ h2)
        · exact Or.inr ⟨f1.trans f2, strLt_trans h1 h2⟩

theorem keyLt_trichotomy (a b : ℤ × ℚ × String) : keyLt a b ∨ a = b ∨ keyLt b a := by
  obtain ⟨a1, a2, a3⟩ := a
  obtain ⟨b1, b2, b3⟩ := b
  simp only [keyLt]
  rcases lt_trichotomy a1 b1 with h1 | h1 | h1
  · exact Or.inl (Or.inl h1)
  · rcases lt_trichotomy a2 b2 with h2 | h2 | h2
    · exact Or.inl (Or.inr ⟨h1, Or.inl h2⟩)
    · rcases strLt_trichotomy a3 b3 with h3 | h3 | h3
      · exact Or.inl (Or.inr ⟨h1, Or.inr ⟨h2, h3⟩⟩)
      · subst h1; subst h2; subst h3; exact Or.inr (Or.inl rfl)
      · exact Or.inr (Or.inr (Or.inr ⟨h1.symm, Or.inr ⟨h2.symm, h3⟩⟩))
    · exact Or.inr (Or.inr (Or.inr ⟨h1.symm, Or.inl h2⟩))
  · exact Or.inr (Or.inr (Or.inl h1))

theorem eq_of_not_keyLt {a b : ℤ × ℚ × String} (h1 : ¬ keyLt a b) (h2 : ¬ keyLt b a) :
    a = b := by
  rcases keyLt_trichotomy a b with h | h | h
  · exact absurd h h1
  · exact h
  · exact absurd h h2

/-! ### Python `max` characterisation -/

theorem pyStep_cases (key : String → ℤ × ℚ × String) (b y : String) :
    (pyStep key b y = b ∧ ¬ keyLt (key b) (key y)) ∨
      (pyStep key b y = y ∧ keyLt (key b) (key y)) := by
  unfold pyStep
  by_cases h : keyLt (key b) (key y)
  · exact Or.inr ⟨if_pos h, h⟩
  · exact Or.inl ⟨if_neg h, h⟩

theorem foldl_pyStep_mem (key : String → ℤ × ℚ × String) :
    ∀ (xs : List String) (b : String),
      xs.foldl (pyStep key) b = b ∨ xs.foldl (pyStep key) b ∈ xs := by
  intro xs
  induction xs with
  | nil => exact fun b => Or.inl rfl
  | cons y ys ih =>
    intro b
    rw [List.foldl_cons]
    rcases ih (pyStep key b y) with h | h
    · rcases pyStep_cases key b y with ⟨h2, _⟩ | ⟨h2, _⟩
      · refine Or.inl ?_
        rw [h, h2]
      · refine Or.inr ?_
        rw [h, h2]
        exact List.mem_cons_self y ys
    · exact Or.inr (List.mem_cons_of_mem y h)

theorem foldl_pyStep_not_lt (key : String → ℤ × ℚ × String) :
    ∀ (xs : List String) (b : String),
      ¬ keyLt (key (xs.foldl (pyStep key) b)) (key b) ∧
        ∀ y ∈ xs, ¬ keyLt (key (xs.foldl (pyStep key) b)) (key y) := by
  intro xs
  induction xs with
  | nil =>
    intro b
    exact ⟨keyLt_irrefl _, by simp⟩
  | cons y ys ih =>
    intro b
    rw [List.foldl_cons]
    obtain ⟨h1, h2⟩ := ih (pyStep key b y)
    rcases pyStep_cases key b y with ⟨hc, hnlt⟩ | ⟨hc, hlt⟩
    · rw [hc] at h1 h2 ⊢
      refine ⟨h1, ?_⟩
      intro z hz
      rcases List.mem_cons.1 hz with rfl | hz
      · intro habs
        rcases keyLt_trichotomy (key b) (key z) with ht | ht | ht
        · exact hnlt ht
        · exact h1 (ht ▸ habs)
        · exact h1 (keyLt_trans habs ht)
      · exact h2 z hz
    · rw [hc] at h1 h2 ⊢
      refine ⟨?_, ?_⟩
      · intro habs
        exact h1 (keyLt_trans habs hlt)
      · intro z hz
        rcases List.mem_cons.1 hz with rfl | hz
        · exact h1
        · exact h2 z hz

theorem pyMax_spec (key : String → ℤ × ℚ × String) (l : List String) (h : l ≠ []) :
    ∃ w, pyMax key l = some w ∧ w ∈ l ∧ ∀ y ∈ l, ¬ keyLt (key w) (key y) := by
  match l with
  | [] => exact absurd rfl h
  | x :: xs =>
    refine ⟨xs.foldl (pyStep key) x, rfl, ?_, ?_⟩
    · rcases foldl_pyStep_mem key xs x with h | h
      · rw [h]
        exact List.mem_cons_self x xs
      · exact List.mem_cons_of_mem x h
    · obtain ⟨h1, h2⟩ := foldl_pyStep_not_lt key xs x
      intro y hy
      rcases List.mem_cons.1 hy with rfl | hy
      · exact h1
      · exact h2 y hy

theorem pyMax_eq_of_mem_iff (key : String → ℤ × ℚ × String)
    (hinj : ∀ x y, key x = key y → x = y) (l1 l2 : List String)
    (hmem : ∀ x, x ∈ l1 ↔ x ∈ l2) : pyMax key l1 = pyMax key l2 := by
  match l1, l2 with
  | [], [] => rfl
  | [], y :: ys => exact absurd ((hmem y).2 (List.mem_cons_self y ys)) (by simp)
  | x :: xs, [] => exact absurd ((hmem x).1 (List.mem_cons_self x xs)) (by simp)
  | x :: xs, y :: ys =>
    obtain ⟨w1, he1, hm1, hmax1⟩ := pyMax_spec key (x :: xs) (List.cons_ne_nil x xs)
    obtain ⟨w2, he2, hm2, hmax2⟩ := pyMax_spec key (y :: ys) (List.cons_ne_nil y ys)
    rw [he1, he2]
    have h12 : ¬ keyLt (key w1) (key w2) := hmax1 w2 ((hmem w2).2 hm2)
    have h21 : ¬ keyLt (key w2) (key w1) := hmax2 w1 ((hmem w1).1 hm1)
    exact congrArg some (hinj w1 w2 (eq_of_not_keyLt h12 h21))

/-! ### First-occurrence deduplication -/

theorem mem_dedupFirstAux {α : Type} [DecidableEq α] :
    ∀ (l seen : List α) (x : α), x ∈ dedupFirstAux seen l ↔ x ∈ l ∧ x ∉ seen := by
  intro l
  induction l with
  | nil =>
    intro seen x
    simp [dedupFirstAux]
  | cons y ys ih =>
    intro seen x
    simp only [dedupFirstAux]
    by_cases hy : y ∈ seen
    · rw [if_pos hy, ih]
      constructor
      · rintro ⟨hx, hs⟩
        exact ⟨List.mem_cons_of_mem y hx, hs⟩
      · rintro ⟨hx, hs⟩
        rcases List.mem_cons.1 hx with rfl | hx
        · exact absurd hy hs
        · exact ⟨hx, hs⟩
    · rw [if_neg hy]
      constructor
      · intro hx
        rcases List.mem_cons.1 hx with rfl | hx
        · exact ⟨List.mem_cons_self x ys, hy⟩
        · obtain ⟨h1, h2⟩ := (ih (y :: seen) x).1 hx
          exact ⟨List.mem_cons_of_mem y h1, fun hs => h2 (List.mem_cons_of_mem y hs)⟩
      · rintro ⟨hx, hs⟩
        rcases List.mem_cons.1 hx with rfl | hx
        · exact List.mem_cons_self x _
        · by_cases hxy : x = y
          · subst hxy
            exact List.mem_cons_self x _
          · refine List.mem_cons_of_mem y ((ih (y :: seen) x).2 ⟨hx, ?_⟩)
            simp [List.mem_cons, hxy, hs]

theorem nodup_dedupFirstAux {α : Type} [DecidableEq α] :
    ∀ (l seen : List α), (dedupFirstAux seen l).Nodup := by
  intro l
  induction l with
  | nil =>
    intro seen
    simp [dedupFirstAux]
  | cons y ys ih =>
    intro seen
    simp only [dedupFirstAux]
    by_cases hy : y ∈ seen
    · rw [if_pos hy]
      exact ih seen
    · rw [if_neg hy]
      refine List.nodup_cons.2 ⟨?_, ih (y :: seen)⟩
      intro hmem
      exact ((mem_dedupFirstAux ys (y :: seen) y).1 hmem).2 (List.mem_cons_self y seen)

theorem mem_dedupFirst {α : Type} [DecidableEq α] (l : List α) (x : α) :
    x ∈ dedupFirst l ↔ x ∈ l := by
  rw [dedupFirst, mem_dedupFirstAux]
  simp

theorem nodup_dedupFirst {α : Type} [DecidableEq α] (l : List α) :
    (dedupFirst l).Nodup :=
  nodup_dedupFirstAux l []

/-! ### Structure of ranked ballots -/

theorem evaluator_of_mem_assignRanks (nc : ℕ) (ev : EngineType) :
    ∀ (l : List ScoreEntry) (r0 : ℕ) (b : BallotEntry),
      b ∈ assignRanks nc ev r0 l → b.evaluator = ev := by
  intro l
  induction l with
  | nil =>
    intro r0 b h
    simp [assignRanks] at h
  | cons e rest ih =>
    intro r0 b h
    simp only [assignRanks] at h
    rcases List.mem_cons.1 h with rfl | h
    · rfl
    · exact ih (r0 + 1) b h

theorem mem_assignRanks (nc : ℕ) (ev : EngineType) :
    ∀ (l : List ScoreEntry) (r0 : ℕ) (b : BallotEntry), b ∈ assignRanks nc ev r0 l →
      ∃ i, ∃ h : i < l.length,
        b = ⟨ev, (l.get ⟨i, h⟩).qid, (l.get ⟨i, h⟩).score, r0 + i, pointsFor nc (r0 + i)⟩ := by
  intro l
  induction l with
  | nil =>
    intro r0 b h
    simp [assignRanks] at h
  | cons e rest ih =>
    intro r0 b h
    simp only [assignRanks] at h
    rcases List.mem_cons.1 h with rfl | h
    · exact ⟨0, Nat.succ_pos _, by simp⟩
    · obtain ⟨i, hi, hb⟩ := ih (r0 + 1) b h
      refine ⟨i + 1, by simpa using hi, ?_⟩
      have harith : r0 + 1 + i = r0 + (i + 1) := by omega
      rw [hb]
      simp [harith]

theorem map_rank_assignRanks (nc : ℕ) (ev : EngineType) :
    ∀ (l : List ScoreEntry) (r0 : ℕ),
      (assignRanks nc ev r0 l).map (·.rank) = List.range' r0 l.length := by
  intro l
  induction l with
  | nil =>
    intro r0
    simp [assignRanks]
  | cons e rest ih =>
    intro r0
    simp only [assignRanks, List.map_cons, List.length_cons, List.range'_succ]
    rw [ih (r0 + 1)]

theorem qid_mem_of_mem_assignRanks (nc : ℕ) (ev : EngineType)
    (l : List ScoreEntry) (r0 : ℕ) (b : BallotEntry) (h : b ∈ assignRanks nc ev r0 l) :
    b.qid ∈ l.map ScoreEntry.qid := by
  obtain ⟨i, hi, hb⟩ := mem_assignRanks nc ev l r0 b h
  rw [hb]
  exact List.mem_map_of_mem ScoreEntry.qid (l.get_mem i hi)

theorem evaluator_of_mem_rankBallot (nc : ℕ) (ev : EngineType)
    (entries : List ScoreEntry) (b : BallotEntry) (h : b ∈ rankBallot nc ev entries) :
    b.evaluator = ev :=
  evaluator_of_mem_assignRanks nc ev _ 1 b h

theorem qid_mem_of_mem_rankBallot (nc : ℕ) (ev : EngineType)
    (entries : List ScoreEntry) (b : BallotEntry) (h : b ∈ rankBallot nc ev entries) :
    b.qid ∈ entries.map ScoreEntry.qid := by
  have h1 := qid_mem_of_mem_assignRanks nc ev _ 1 b h
  obtain ⟨e, he, heq⟩ := List.mem_map.1 h1
  exact heq ▸ List.mem_map_of_mem ScoreEntry.qid ((List.mem_insertionSort voteGE).1 he)

theorem mem_allBallots (o : EngineType → String → Option ℚ)
    (cands : List (EngineType × Question)) (b : BallotEntry) :
    b ∈ allBallots o cands ↔ ∃ ev ∈ cands.map Prod.fst,
      b ∈ rankBallot cands.length ev (collectScores o ev cands) := by
  rw [allBallots]
  exact List.mem_flatMap

theorem mem_block_of_mem_allBallots (o : EngineType → String → Option ℚ)
    (cands : List (EngineType × Question)) (b : BallotEntry)
    (hb : b ∈ allBallots o cands) :
    b.evaluator ∈ cands.map Prod.fst ∧
      b ∈ rankBallot cands.length b.evaluator (collectScores o b.evaluator cands) := by
  obtain ⟨ev, hev, hblock⟩ := (mem_allBallots o cands b).1 hb
  have heq : b.evaluator = ev := evaluator_of_mem_rankBallot _ ev _ b hblock
  rw [heq]
  exact ⟨hev, hblock⟩

theorem mem_collectScores (o : EngineType → String → Option ℚ) (ev : EngineType)
    (cands : List (EngineType × Question)) (e : ScoreEntry)
    (h : e ∈ collectScores o ev cands) :
    ∃ p ∈ cands, p.1 ≠ ev ∧ o ev p.2.id = some e.score ∧ e.qid = p.2.id := by
  obtain ⟨p, hp, hfp⟩ := List.mem_filterMap.1 h
  by_cases hself : p.1 = ev
  · rw [if_pos hself] at hfp
    exact absurd hfp (by simp)
  · rw [if_neg hself] at hfp
    obtain ⟨s, hs, hes⟩ := Option.map_eq_some'.1 hfp
    refine ⟨p, hp, hself, ?_, ?_⟩
    · rw [hs, ← hes]
    · rw [← hes]

theorem filter_flatMap_blocks (g : EngineType → List BallotEntry)
    (hg : ∀ ev b, b ∈ g ev → b.evaluator = ev) :
    ∀ (evs : List EngineType), evs.Nodup → ∀ ev, ev ∈ evs →
      (evs.flatMap g).filter (fun b => b.evaluator = ev) = g ev := by
  intro evs
  induction evs with
  | nil =>
    intro _ ev h
    simp at h
  | cons e rest ih =>
    intro hnd ev hev
    rw [List.flatMap_cons, List.filter_append]
    rcases List.mem_cons.1 hev with rfl | hev
    · have h1 : (g ev).filter (fun b => b.evaluator = ev) = g ev :=
        List.filter_eq_self.2 fun b hb => by simp [hg ev b hb]
      have h2 : (rest.flatMap g).filter (fun b => b.evaluator = ev) = [] := by
        rw [List.filter_eq_nil_iff]
        intro b hb
        obtain ⟨ev2, hev2, hbg⟩ := List.mem_flatMap.1 hb
        have hbev : b.evaluator = ev2 := hg ev2 b hbg
        have hne : ev2 ≠ ev := by
          rintro rfl
          exact (List.nodup_cons.1 hnd).1 hev2
        simp [hbev, hne]
      rw [h1, h2, List.append_nil]
    · have hne : e ≠ ev := by
        rintro rfl
        exact (List.nodup_cons.1 hnd).1 hev
      have h1 : (g e).filter (fun b => b.evaluator = ev) = [] := by
        rw [List.filter_eq_nil_iff]
        intro b hb
        simp [hg e b hb, hne]
      rw [h1, List.nil_append, ih (List.nodup_cons.1 hnd).2 ev hev]

/-- Core tie-break fact: inside one evaluator's ranked ballot, of two
entries with equal score the one with the larger question id received
the smaller (better) rank. -/
theorem rank_desc_core (nc : ℕ) (ev : EngineType) (entries : List ScoreEntry)
    (b1 b2 : BallotEntry) (h1 : b1 ∈ rankBallot nc ev entries)
    (h2 : b2 ∈ rankBallot nc ev entries) (hs : b1.score = b2.score)
    (hq : strLt b1.qid b2.qid) : b2.rank < b1.rank := by
  have hsort : List.Pairwise voteGE (List.insertionSort voteGE entries) :=
    List.sorted_insertionSort voteGE entries
  obtain ⟨i, hi, hb1⟩ := mem_assignRanks nc ev _ 1 b1 h1
  obtain ⟨j, hj, hb2⟩ := mem_assignRanks nc ev _ 1 b2 h2
  rw [hb1, hb2] at hs hq ⊢
  simp only at hs hq ⊢
  rcases lt_trichotomy i j with hij | rfl | hij
  · exfalso
    have hrel := List.pairwise_iff_get.1 hsort ⟨i, hi⟩ ⟨j, hj⟩ hij
    rcases hrel with hlt | ⟨_, hle⟩
    · exact absurd (hs ▸ hlt) (lt_irrefl _)
    · exact absurd hq hle
  · exact absurd hq (strLt_irrefl _)
  · exact Nat.add_lt_add_left hij 1

/-! ### Generation fold -/

theorem genStep_keys (gen : EngineType → Option Question)
    (m : List (EngineType × Question)) (e : EngineType) :
    (genStep gen m e).map Prod.fst = m.map Prod.fst ∨
      (e ∉ m.map Prod.fst ∧
        (genStep gen m e).map Prod.fst = m.map Prod.fst ++ [e]) := by
  unfold genStep
  cases gen e with
  | none => exact Or.inl rfl
  | some q =>
    unfold insertCand
    dsimp only
    by_cases he : e ∈ m.map Prod.fst
    · have hany : (m.any fun p => p.1 = e) = true := by
        obtain ⟨p, hp, hpe⟩ := List.mem_map.1 he
        exact List.any_eq_true.2 ⟨p, hp, by simp [hpe]⟩
      rw [if_pos hany]
      refine Or.inl ?_
      rw [List.map_map]
      refine List.map_congr_left fun p _ => ?_
      by_cases hpe : p.1 = e
      · simp [hpe]
      · simp [hpe]
    · have hany : (m.any fun p => p.1 = e) = false := by
        rw [List.any_eq_false]
        intro p hp
        simp only [decide_eq_true_eq]
        intro hpe
        exact he (List.mem_map.2 ⟨p, hp, hpe⟩)
      rw [if_neg (by simp [hany])]
      exact Or.inr ⟨he, by simp⟩

theorem foldl_genStep_keys (gen : EngineType → Option Question) :
    ∀ (engines : List EngineType) (acc : List (EngineType × Question)),
      (acc.map Prod.fst).Nodup →
        ((engines.foldl (genStep gen) acc).map Prod.fst).Nodup ∧
          ∀ e ∈ (engines.foldl (genStep gen) acc).map Prod.fst,
            e ∈ acc.map Prod.fst ∨ e ∈ engines := by
  intro engines
  induction engines with
  | nil =>
    intro acc hacc
    exact ⟨hacc, fun e he => Or.inl he⟩
  | cons x xs ih =>
    intro acc hacc
    rw [List.foldl_cons]
    have hstep : ((genStep gen acc x).map Prod.fst).Nodup ∧
        ∀ e ∈ (genStep gen acc x).map Prod.fst,
          e ∈ acc.map Prod.fst ∨ e = x := by
      rcases genStep_keys gen acc x with h | ⟨hx, h⟩
      · rw [h]
        exact ⟨hacc, fun e he => Or.inl he⟩
      · rw [h]
        constructor
        · rw [List.nodup_append]
          exact ⟨hacc, List.nodup_singleton x, by simpa [List.disjoint_right] using hx⟩
        · intro e he
          rcases List.mem_append.1 he with he | he
          · exact Or.inl he
          · exact Or.inr (by simpa using he)
    obtain ⟨hnd, hsub⟩ := ih (genStep gen acc x) hstep.1
    refine ⟨hnd, ?_⟩
    intro e he
    rcases hsub e he with he2 | he2
    · rcases hstep.2 e he2 with he3 | rfl
      · exact Or.inl he3
      · exact Or.inr (List.mem_cons_self e xs)
    · exact Or.inr (List.mem_cons_of_mem x he2)

theorem genCandidates_keys_nodup (gen : EngineType → Option Question)
    (engines : List EngineType) :
    ((genCandidates gen engines).map Prod.fst).Nodup :=
  (foldl_genStep_keys gen engines [] (by simp)).1

theorem genCandidates_keys_subset (gen : EngineType → Option Question)
    (engines : List EngineType) :
    ∀ e ∈ (genCandidates gen engines).map Prod.fst, e ∈ engines := by
  intro e he
  rcases (foldl_genStep_keys gen engines [] (by simp)).2 e he with h | h
  · simp at h
  · exact h

/-! ### Retry loop facts -/

theorem retryFrom_congr {E A : Type} (a1 a2 : ℕ → Except E A) :
    ∀ (fuel k : ℕ), (∀ j, k ≤ j → j ≤ k + fuel → a1 j = a2 j) →
      retryFrom a1 k fuel = retryFrom a2 k fuel := by
  intro fuel
  induction fuel with
  | zero =>
    intro k h
    simp only [retryFrom]
    exact h k le_rfl (by omega)
  | succ fuel ih =>
    intro k h
    simp only [retryFrom]
    rw [h k le_rfl (by omega)]
    cases a2 k with
    | ok a => rfl
    | error e => exact ih (k + 1) fun j hj1 hj2 => h j (by omega) (by omega)

theorem retryFrom_all_fail {E A : Type} (a : ℕ → Except E A) :
    ∀ (fuel k : ℕ), (∀ j, k ≤ j → j ≤ k + fuel → ∃ err, a j = Except.error err) →
      retryFrom a k fuel = a (k + fuel) := by
  intro fuel
  induction fuel with
  | zero =>
    intro k _
    simp [retryFrom]
  | succ fuel ih =>
    intro k h
    simp only [retryFrom]
    obtain ⟨err, herr⟩ := h k le_rfl (by omega)
    rw [herr]
    dsimp only
    rw [ih (k + 1) fun j hj1 hj2 => h j (by omega) (by omega)]
    exact congrArg a (by omega)

/-! ### Generation loop with total failure -/

theorem foldl_genStep_none (gen : EngineType → Option Question) :
    ∀ (engines : List EngineType) (acc : List (EngineType × Question)),
      (∀ e ∈ engines, gen e = none) → engines.foldl (genStep gen) acc = acc := by
  intro engines
  induction engines with
  | nil =>
    intro acc _
    rfl
  | cons x xs ih =>
    intro acc h
    rw [List.foldl_cons]
    have hx : genStep gen acc x = acc := by
      unfold genStep
      rw [h x (List.mem_cons_self x xs)]
    rw [hx, ih acc fun e he => h e (List.mem_cons_of_mem x he)]

/-! ### Claim theorems -/

/-- C6: if no engine produces a candidate — in particular when the
requested engine list is empty — the tournament returns an empty
candidate list, an empty ballot set and no winner, as a normal return
value (the embedding is a total function, so no exception is
possible). -/
theorem claim6_total_generation_failure (gen : EngineType → Option Question)
    (o : EngineType → String → Option ℚ) (engines : List EngineType)
    (h : ∀ e ∈ engines, gen e = none) :
    generateQuestions gen o engines = ([], [], none) := by
  have hcand : genCandidates gen engines = [] := by
    rw [genCandidates]
    exact foldl_genStep_none gen engines [] h
  unfold generateQuestions
  rw [hcand]
  simp

/-- C6 witness: requesting only the failing engine `xai` yields the
empty tournament result. -/
theorem claim6_witness :
    generateQuestions genOracle3 evalOracle3 [EngineType.xai] = ([], [], none) :=
  claim6_total_generation_failure genOracle3 evalOracle3 [EngineType.xai] (by decide)

/-- C7: if candidates exist but the ballot set is empty (every
evaluation failed), the tournament returns the full candidate list with
an empty ballot set and no winner, again as a normal return value. -/
theorem claim7_total_evaluation_failure (gen : EngineType → Option Question)
    (o : EngineType → String → Option ℚ) (engines : List EngineType)
    (hne : genCandidates gen engines ≠ [])
    (hb : allBallots o (genCandidates gen engines) = []) :
    generateQuestions gen o engines =
      ((genCandidates gen engines).map Prod.snd, [], none) := by
  have h1 : (genCandidates gen engines).isEmpty = false := by
    rwa [List.isEmpty_eq_false]
  unfold generateQuestions
  rw [h1, hb]
  simp

/-- C7 witness: with `gpt` as the only engine, its own candidate is the
only one, self-evaluation is skipped, so the ballot set is empty and the
candidate is returned with no winner. -/
theorem claim7_witness :
    generateQuestions genOracle3 evalOracle3 [EngineType.gpt] =
      ((genCandidates genOracle3 [EngineType.gpt]).map Prod.snd, [], none) :=
  claim7_total_evaluation_failure genOracle3 evalOracle3 [EngineType.gpt]
    (by decide) (by decide)

/-- C8: the retry wrapper consults at most the first `1 + retries`
attempt outcomes (two attempt sequences agreeing on attempts
`0..retries` give identical results), and when every attempt in that
window fails it surfaces exactly the outcome of the last attempt —
the error of attempt `retries` — to its caller. -/
theorem claim8_retry_bound_and_last_error {E A : Type} (retries : ℕ)
    (a1 a2 : ℕ → Except E A) (hagree : ∀ k, k ≤ retries → a1 k = a2 k) :
    toThreadWithRetry a1 retries = toThreadWithRetry a2 retries ∧
      ((∀ k, k ≤ retries → ∃ err, a1 k = Except.error err) →
        toThreadWithRetry a1 retries = a1 retries) := by
  constructor
  · exact retryFrom_congr a1 a2 retries 0 fun j h1 h2 => hagree j (by omega)
  · intro hfail
    have h := retryFrom_all_fail a1 retries 0 fun j h1 h2 => hfail j (by omega)
    unfold toThreadWithRetry
    rw [h]
    exact congrArg a1 (by omega)

/-- C8 witness: a call that always fails with `"boom"`, run with one
retry, returns the last attempt's outcome. -/
theorem claim8_witness :
    toThreadWithRetry (fun _ => (Except.error "boom" : Except String ℚ)) 1 =
      (fun _ : ℕ => (Except.error "boom" : Except String ℚ)) 1 :=
  (claim8_retry_bound_and_last_error 1 _ _ fun _ _ => rfl).2 fun _ _ => ⟨"boom", rfl⟩

/-- C10: for every requested engine list — duplicates included — the
candidate mapping holds at most one candidate per engine identity and
its size never exceeds the number of distinct engines requested. -/
theorem claim10_one_candidate_per_engine (gen : EngineType → Option Question)
    (engines : List EngineType) :
    ((genCandidates gen engines).map Prod.fst).Nodup ∧
      (genCandidates gen engines).length ≤ engines.dedup.length := by
  have hnd := genCandidates_keys_nodup gen engines
  have hsub := genCandidates_keys_subset gen engines
  refine ⟨hnd, ?_⟩
  have h1 : (genCandidates gen engines).length
      = ((genCandidates gen engines).map Prod.fst).length :=
    (List.length_map _ _).symm
  rw [h1]
  calc ((genCandidates gen engines).map Prod.fst).length
      = ((genCandidates gen engines).map Prod.fst).toFinset.card :=
        (List.toFinset_card_of_nodup hnd).symm
    _ ≤ engines.toFinset.card := by
        refine Finset.card_le_card ?_
        intro e he
        exact List.mem_toFinset.2 (hsub e (List.mem_toFinset.1 he))
    _ = engines.dedup.length := List.card_toFinset ..

/-- C1 counterexample: under `cexOracle`, evaluator gpt scores the
candidates `a` and `b` with the same score 5, and the entry with the
lexicographically smaller id `a` receives the larger rank 2 (with `b`
at rank 1) — refuting "ties broken by candidate id ascending". -/
theorem claim1_counterexample :
    ∃ b1 b2 : BallotEntry,
      b1 ∈ allBallots cexOracle cexCands ∧ b2 ∈ allBallots cexOracle cexCands ∧
      b1.evaluator = b2.evaluator ∧ b1.score = b2.score ∧
      strLt b1.qid b2.qid ∧ ¬ b1.rank < b2.rank :=
  ⟨⟨EngineType.gpt, "a", 5, 2, 2⟩, ⟨EngineType.gpt, "b", 5, 1, 3⟩,
    by decide, by decide, rfl, rfl, by decide, by decide⟩

/-- C1 amended: for any two ballot entries of the same evaluator with
equal score, the candidate with the lexicographically larger id receives
the smaller (better) rank — the composite sort key is reversed as a
whole, so ties are broken by candidate id descending. -/
theorem claim1_tie_break_descending (o : EngineType → String → Option ℚ)
    (cands : List (EngineType × Question)) (b1 b2 : BallotEntry)
    (h1 : b1 ∈ allBallots o cands) (h2 : b2 ∈ allBallots o cands)
    (hev : b1.evaluator = b2.evaluator) (hs : b1.score = b2.score)
    (hq : strLt b1.qid b2.qid) : b2.rank < b1.rank := by
  obtain ⟨_, hb1⟩ := mem_block_of_mem_allBallots o cands b1 h1
  obtain ⟨_, hb2⟩ := mem_block_of_mem_allBallots o cands b2 h2
  rw [hev] at hb1
  exact rank_desc_core _ _ _ b1 b2 hb1 hb2 hs hq

/-- C1 witness: the amended tie-break applied to the tied gpt ballot of
`cexOracle`: the entry for `b` (rank 1) beats the entry for `a`
(rank 2). -/
theorem claim1_tie_break_descending_witness :
    (⟨EngineType.gpt, "b", 5, 1, 3⟩ : BallotEntry).rank
      < (⟨EngineType.gpt, "a", 5, 2, 2⟩ : BallotEntry).rank :=
  claim1_tie_break_descending cexOracle cexCands
    ⟨EngineType.gpt, "a", 5, 2, 2⟩ ⟨EngineType.gpt, "b", 5, 1, 3⟩
    (by decide) (by decide) rfl rfl (by decide)

/-- C2: whenever the ballot set is non-empty, the returned winner is
the unique candidate id among the balloted ids maximizing the tuple
`(total points, mean score, candidate id)` lexicographically: every
other balloted id has a strictly smaller key. -/
theorem claim2_winner_unique_max (ballots : List BallotEntry) (hne : ballots ≠ []) :
    ∃ w, winnerId ballots = some w ∧ w ∈ ballots.map BallotEntry.qid ∧
      ∀ q ∈ ballots.map BallotEntry.qid, q ≠ w →
        keyLt (winnerKey ballots q) (winnerKey ballots w) := by
  have hmap : ballots.map BallotEntry.qid ≠ [] := by
    simpa using hne
  have hdne : dedupFirst (ballots.map BallotEntry.qid) ≠ [] := by
    obtain ⟨x, hx⟩ := List.exists_mem_of_ne_nil _ hmap
    exact List.ne_nil_of_mem ((mem_dedupFirst _ x).2 hx)
  obtain ⟨w, he, hm, hmax⟩ := pyMax_spec (winnerKey ballots) _ hdne
  refine ⟨w, he, (mem_dedupFirst _ w).1 hm, ?_⟩
  intro q hq hne2
  have hnlt := hmax q ((mem_dedupFirst _ q).2 hq)
  rcases keyLt_trichotomy (winnerKey ballots q) (winnerKey ballots w) with h | h | h
  · exact h
  · exact absurd (congrArg (fun k => k.2.2) h) hne2
  · exact absurd h hnlt

/-- C2 witness: a one-entry ballot set has a winner with the maximal
key property. -/
theorem claim2_witness :
    ∃ w, winnerId [⟨EngineType.gpt, "x", 9, 1, 3⟩] = some w ∧
      w ∈ ([⟨EngineType.gpt, "x", 9, 1, 3⟩] : List BallotEntry).map BallotEntry.qid ∧
      ∀ q ∈ ([⟨EngineType.gpt, "x", 9, 1, 3⟩] : List BallotEntry).map BallotEntry.qid,
        q ≠ w →
        keyLt (winnerKey [⟨EngineType.gpt, "x", 9, 1, 3⟩] q)
          (winnerKey [⟨EngineType.gpt, "x", 9, 1, 3⟩] w) :=
  claim2_winner_unique_max [⟨EngineType.gpt, "x", 9, 1, 3⟩] (by decide)

/-- C3: the concrete 3-engine scenario — candidates a1, b1, c1 with
evaluator gpt (A) scoring b1=9 and c1=7, gemini (B) scoring a1=8 and
c1=6, anthropic (C) scoring a1=7 and b1=9 — yields total points a1=5,
b1=6, c1=4 and winner b1. -/
theorem claim3_three_engine_scenario :
    totalPoints scenarioBallots "a1" = 5 ∧ totalPoints scenarioBallots "b1" = 6 ∧
      totalPoints scenarioBallots "c1" = 4 ∧ winnerId scenarioBallots = some "b1" := by
  decide

/-- C4: under distinct candidate ids, no ballot entry evaluates its
own producing engine's candidate: for every recorded ballot entry and
every candidate whose question id matches the entry, the candidate's
producing engine differs from the evaluator. -/
theorem claim4_no_self_evaluation (o : EngineType → String → Option ℚ)
    (cands : List (EngineType × Question)) (b : BallotEntry)
    (p : EngineType × Question)
    (hqid : (cands.map fun r => r.2.id).Nodup)
    (hb : b ∈ allBallots o cands) (hp : p ∈ cands) (hid : p.2.id = b.qid) :
    p.1 ≠ b.evaluator := by
  obtain ⟨_, hblock⟩ := mem_block_of_mem_allBallots o cands b hb
  have hq := qid_mem_of_mem_rankBallot _ _ _ b hblock
  obtain ⟨e, he, heq⟩ := List.mem_map.1 hq
  obtain ⟨p2, hp2, hne, _, hqe⟩ := mem_collectScores o b.evaluator cands e he
  have hpp : p = p2 := by
    refine List.inj_on_of_nodup_map hqid hp hp2 ?_
    show p.2.id = p2.2.id
    rw [hid, ← heq, hqe]
  rw [hpp]
  exact hne

/-- C4 witness: in the 3-engine scenario, gpt's ballot entry for b1
names a candidate produced by gemini, not by gpt. -/
theorem claim4_witness :
    (EngineType.gemini, (⟨"b1", EngineType.gemini⟩ : Question)).1
      ≠ (⟨EngineType.gpt, "b1", 9, 1, 3⟩ : BallotEntry).evaluator :=
  claim4_no_self_evaluation evalOracle3 scenarioCands
    ⟨EngineType.gpt, "b1", 9, 1, 3⟩ (EngineType.gemini, ⟨"b1", EngineType.gemini⟩)
    (by decide) (by decide) (by decide) rfl

/-- C5: for every evaluator present in the candidate mapping (with its
engine keys distinct, as the source dict guarantees), the ranks that
evaluator assigned are exactly the list `[1, ..., m]` — no duplicates,
no gaps — where `m` is the number of candidates it actually scored. -/
theorem claim5_rank_contiguity (o : EngineType → String → Option ℚ)
    (cands : List (EngineType × Question)) (ev : EngineType)
    (hnd : (cands.map Prod.fst).Nodup) (hev : ev ∈ cands.map Prod.fst) :
    ((allBallots o cands).filter fun b => b.evaluator = ev).map BallotEntry.rank
      = List.range' 1 (collectScores o ev cands).length := by
  have hfil := filter_flatMap_blocks
    (fun ev2 => rankBallot cands.length ev2 (collectScores o ev2 cands))
    (fun ev2 b hb => evaluator_of_mem_rankBallot _ ev2 _ b hb)
    (cands.map Prod.fst) hnd ev hev
  rw [allBallots, hfil]
  unfold rankBallot
  rw [map_rank_assignRanks, List.length_insertionSort]

/-- C5 witness: in the 3-engine scenario the gpt evaluator scored two
candidates and assigned exactly the ranks `[1, 2]`. -/
theorem claim5_witness :
    ((allBallots evalOracle3 scenarioCands).filter
        fun b => b.evaluator = EngineType.gpt).map BallotEntry.rank
      = List.range' 1 (collectScores evalOracle3 EngineType.gpt scenarioCands).length :=
  claim5_rank_contiguity evalOracle3 scenarioCands EngineType.gpt (by decide) (by decide)

/-- C9: the ranking-and-winner computation is a function only of the
set of collected `(evaluator, candidate, score)` results: feeding the
same results in any two arrival orders (each result pair appearing
once, as one verification task per pair guarantees) yields the same
winner id. -/
theorem claim9_deterministic_winner (nc : ℕ) (l1 l2 : List VerifyResult)
    (hperm : l1.Perm l2)
    (_hnd : (l1.map fun t => (t.evaluator, t.qid)).Nodup) :
    winnerFromTriples nc l1 = winnerFromTriples nc l2 := by
  have hblocks : ∀ ev : EngineType,
      rankBallot nc ev ((l1.filter fun t => t.evaluator = ev).map fun t =>
        (⟨t.qid, t.score⟩ : ScoreEntry))
        = rankBallot nc ev ((l2.filter fun t => t.evaluator = ev).map fun t =>
          (⟨t.qid, t.score⟩ : ScoreEntry)) := by
    intro ev
    have hp : (((l1.filter fun t => t.evaluator = ev).map fun t =>
        (⟨t.qid, t.score⟩ : ScoreEntry))).Perm
        ((l2.filter fun t => t.evaluator = ev).map fun t =>
          (⟨t.qid, t.score⟩ : ScoreEntry)) :=
      (hperm.filter _).map _
    have hsorteq : List.insertionSort voteGE
        ((l1.filter fun t => t.evaluator = ev).map fun t =>
          (⟨t.qid, t.score⟩ : ScoreEntry))
        = List.insertionSort voteGE
          ((l2.filter fun t => t.evaluator = ev).map fun t =>
            (⟨t.qid, t.score⟩ : ScoreEntry)) := by
      refine List.eq_of_perm_of_sorted ?_ (List.sorted_insertionSort voteGE _)
        (List.sorted_insertionSort voteGE _)
      exact ((List.perm_insertionSort voteGE _).trans hp).trans
        (List.perm_insertionSort voteGE _).symm
    unfold rankBallot
    rw [hsorteq]
  have hg : (fun ev => rankBallot nc ev ((l2.filter fun t => t.evaluator = ev).map
        fun t => (⟨t.qid, t.score⟩ : ScoreEntry)))
      = fun ev => rankBallot nc ev ((l1.filter fun t => t.evaluator = ev).map
        fun t => (⟨t.qid, t.score⟩ : ScoreEntry)) :=
    funext fun ev => (hblocks ev).symm
  have hevs : (dedupFirst (l1.map fun t => t.evaluator)).Perm
      (dedupFirst (l2.map fun t => t.evaluator)) := by
    refine (List.perm_ext_iff_of_nodup (nodup_dedupFirst _) (nodup_dedupFirst _)).2 ?_
    intro ev
    rw [mem_dedupFirst, mem_dedupFirst]
    exact (hperm.map fun t => t.evaluator).mem_iff
  have hballots : (ballotsFromTriples nc l1).Perm (ballotsFromTriples nc l2) := by
    unfold ballotsFromTriples
    rw [hg]
    exact hevs.flatMap_right _
  have hkeys : winnerKey (ballotsFromTriples nc l1)
      = winnerKey (ballotsFromTriples nc l2) := by
    funext q
    have hf : ((ballotsFromTriples nc l1).filter fun b => b.qid = q).Perm
        ((ballotsFromTriples nc l2).filter fun b => b.qid = q) := hballots.filter _
    have hpts : (((ballotsFromTriples nc l1).filter fun b => b.qid = q).map
          BallotEntry.points).sum
        = (((ballotsFromTriples nc l2).filter fun b => b.qid = q).map
          BallotEntry.points).sum := (hf.map _).sum_eq
    have hsc : (((ballotsFromTriples nc l1).filter fun b => b.qid = q).map
          BallotEntry.score).sum
        = (((ballotsFromTriples nc l2).filter fun b => b.qid = q).map
          BallotEntry.score).sum := (hf.map _).sum_eq
    have hlen : (((ballotsFromTriples nc l1).filter fun b => b.qid = q).map
          BallotEntry.score).length
        = (((ballotsFromTriples nc l2).filter fun b => b.qid = q).map
          BallotEntry.score).length := (hf.map _).length_eq
    unfold winnerKey totalPoints meanScore
    rw [hpts, hsc, hlen]
  unfold winnerFromTriples winnerId
  rw [hkeys]
  refine pyMax_eq_of_mem_iff _ (fun x y h => congrArg (fun k => k.2.2) h) _ _ ?_
  intro x
  rw [mem_dedupFirst, mem_dedupFirst]
  exact (hballots.map _).mem_iff

/-- C9 witness: two arrival orders of the same two verification results
produce the same winner. -/
theorem claim9_witness :
    winnerFromTriples 2 [⟨EngineType.gpt, "a", 1⟩, ⟨EngineType.gemini, "b", 2⟩]
      = winnerFromTriples 2 [⟨EngineType.gemini, "b", 2⟩, ⟨EngineType.gpt, "a", 1⟩] :=
  claim9_deterministic_winner 2
    [⟨EngineType.gpt, "a", 1⟩, ⟨EngineType.gemini, "b", 2⟩]
    [⟨EngineType.gemini, "b", 2⟩, ⟨EngineType.gpt, "a", 1⟩]
    (List.Perm.swap _ _ _) (by decide)

end Prompt2Quiz
